import Mathlib

/-!
# Verification of the CFB betting model (edge-and-probability pipeline)

Shallow embedding of the picks pipeline from `app.py` / `cfbpredict.py`:
the error-function based normal CDF, tier classification, per-game line
selection, edge computation and side selection, the top-12 view, parlay
enumeration and the futures-odds de-duplication.

Python floats are modelled as real numbers (`ℝ`) for the probability
engine; the pure list-processing stages (top-N, parlays, futures dedupe)
are stated generically over a linear order so that they can be evaluated
on rational inputs.  Display-only rounding (`round(x, 2)` / `round(x, 3)`
on emitted table cells) is omitted: all claims concern the unrounded
computed values, and rounding in the source happens only when a value is
stored for display.
-/

namespace CFB

open Real MeasureTheory Set intervalIntegral

/-- `math.erf`, modelled exactly: `erf x = (2/√π) · ∫ t in 0..x, exp (-t²)`. -/
noncomputable def erf (x : ℝ) : ℝ :=
  (2 / Real.sqrt Real.pi) * ∫ t in (0:ℝ)..x, Real.exp (-t ^ 2)

/-- `normal_cdf` (app.py line 92, cfbpredict.py line 155):
`0.5 * (1.0 + math.erf(z / math.sqrt(2.0)))`. -/
noncomputable def normal_cdf (z : ℝ) : ℝ :=
  0.5 * (1.0 + erf (z / Real.sqrt 2.0))

/-- Confidence tiers for a pick (the strings "A", "B", "C", "Pass"). -/
inductive Tier where
  | A
  | B
  | C
  | pass
deriving DecidableEq, Repr, Inhabited

/-- `classify_tier` (app.py lines 95-99, cfbpredict.py lines 160-171). -/
noncomputable def classify_tier (p : ℝ) : Tier :=
  if p ≥ 0.60 then Tier.A
  else if p ≥ 0.55 then Tier.B
  else if p ≥ 0.52 then Tier.C
  else Tier.pass

/-- One quoted line of a game: `{"provider": ..., "spread": ...}`; both
fields can be `None` in the JSON shape the model consumes. -/
structure Line where
  provider : Option String
  spread : Option ℝ

/-- One game as consumed by the model:
`{"home_team": ..., "away_team": ..., "lines": [...]}`. -/
structure Game where
  home_team : String
  away_team : String
  lines : List Line

/-- `pick_line` (app.py lines 290-296) / `pick_line_for_game`
(cfbpredict.py lines 136-150): `None` when there are no lines, else the
first line whose provider matches `pref` case-insensitively, else the
first line. -/
def pick_line (game : Game) (pref : String) : Option Line :=
  match game.lines with
  | [] => none
  | l :: ls =>
      match (l :: ls).find? (fun ln => (ln.provider.getD "").toLower == pref.toLower) with
      | some ln => some ln
      | none => some l

/-- One output row of the edge model (the dict appended to `rows` in
`build_weekly_picks`, cfbpredict.py lines 237-251; same fields under
display names in app.py lines 318-325), generic in the numeric type. -/
structure Pick (α : Type) where
  home_team : String
  away_team : String
  pick_team : String
  provider : Option String
  sp_home_rating : α
  sp_away_rating : α
  model_spread_home : α
  market_spread_home : α
  edge_points : α
  cover_prob : α
  tier : Tier
  model_pick : String
deriving DecidableEq

/-- The loop body of `build_picks` (app.py lines 307-325) /
`build_weekly_picks` (cfbpredict.py lines 201-251) for one non-skipped
game: model spread, edge, home cover probability, side selection, tier. -/
noncomputable def pick_row (home away : String) (provider : Option String)
    (home_rating away_rating market_spread hf std : ℝ) : Pick ℝ :=
  let model_spread_home := (home_rating - away_rating) + hf
  let edge := model_spread_home + market_spread
  let z := (-market_spread - model_spread_home) / std
  let home_cover_prob := 1.0 - normal_cdf z
  let sel : String × ℝ × String :=
    if edge > 0 then ("HOME (" ++ home ++ ")", home_cover_prob, home)
    else if edge < 0 then ("AWAY (" ++ away ++ ")", 1.0 - home_cover_prob, away)
    else ("NO EDGE", 0.5, "")
  { home_team := home
    away_team := away
    pick_team := sel.2.2
    provider := provider
    sp_home_rating := home_rating
    sp_away_rating := away_rating
    model_spread_home := model_spread_home
    market_spread_home := market_spread
    edge_points := edge
    cover_prob := sel.2.1
    tier := classify_tier sel.2.1
    model_pick := sel.1 }

/-- `build_picks` (app.py lines 298-326) / the loop of
`build_weekly_picks` (cfbpredict.py lines 190-251): for each game pick a
line, `continue` (skip) when the line or its spread is missing or either
team is absent from the rating map, otherwise emit the computed row.
The rating map is modelled as `String → Option ℝ` (`home not in ratings`
becomes `ratings home = none`). -/
noncomputable def build_picks (ratings : String → Option ℝ) (games : List Game)
    (hf std : ℝ) (prov : String) : List (Pick ℝ) :=
  games.filterMap (fun game =>
    match pick_line game prov with
    | none => none
    | some ln =>
        match ln.spread with
        | none => none
        | some market =>
            match ratings game.home_team, ratings game.away_team with
            | some rh, some ra =>
                some (pick_row game.home_team game.away_team ln.provider rh ra market hf std)
            | some _, none => none
            | none, _ => none)

/-- Spec §4.1 reference formula, written from the spec's words:
`cover_probability(model_margin, market_spread, std_dev)
  = 1 - Φ((-market_spread - model_margin) / std_dev)`. -/
noncomputable def cover_probability (model_margin market_spread std_dev : ℝ) : ℝ :=
  1 - normal_cdf ((-market_spread - model_margin) / std_dev)

/-- Spec-side line selection, written from the claim's words: "the line
whose provider matches the preferred provider, falling back to the first
line if the preferred provider is absent". -/
def select_line_spec (game : Game) (pref : String) : Option Line :=
  match game.lines.find? (fun ln => (ln.provider.getD "").toLower == pref.toLower) with
  | some ln => some ln
  | none => game.lines.head?

/-- Spec-side exclusion predicate, written from the claim's words: the
game is excluded exactly when the selected line's spread is missing
(including the degenerate case that there is no line to select) or either
team's name is absent from the rating map. -/
def excluded_spec (ratings : String → Option ℝ) (game : Game) (pref : String) : Bool :=
  ((select_line_spec game pref).bind Line.spread).isNone
    || (ratings game.home_team).isNone || (ratings game.away_team).isNone

/-- Spec-side per-game processing: the row for a game, or `none` when
the game is excluded, built from the claim's selection rule. -/
noncomputable def row_spec (ratings : String → Option ℝ) (g : Game) (prov : String)
    (hf σ : ℝ) : Option (Pick ℝ) :=
  match select_line_spec g prov with
  | none => none
  | some ln =>
      match ln.spread, ratings g.home_team, ratings g.away_team with
      | some market, some rh, some ra =>
          some (pick_row g.home_team g.away_team ln.provider rh ra market hf σ)
      | _, _, _ => none

/-! ## Aggregation stages (top-12, parlays)

`df.sort_values("Cover Prob", ascending=False)` guarantees a permutation
of the rows ordered by the key descending, and nothing more about ties:
the default sort kind `quicksort` (numpy's introsort) is not stable.
`sortCoverDesc` below is therefore ONE admissible implementation of that
contract — used where a concrete function is needed and no stated
property depends on tie order — while `SortDescSpec` captures the
contract itself, so that properties of the top-12 view can be proved for
every admissible sort and the absence of a tie-order guarantee can be
exhibited.  The stages are generic in a linear order so they can be run
on integer inputs. -/

/-- Insert into a list already sorted by `cover_prob` descending, after
every strictly larger element and before every `≤` one. -/
def insertCoverDesc {α : Type} [LinearOrder α] (x : Pick α) : List (Pick α) → List (Pick α)
  | [] => [x]
  | y :: ys =>
      if y.cover_prob ≤ x.cover_prob then x :: y :: ys
      else y :: insertCoverDesc x ys

/-- One admissible implementation of
`sort_values("Cover Prob", ascending=False)`: an insertion sort by
`cover_prob` descending that happens to keep ties in input order. -/
def sortCoverDesc {α : Type} [LinearOrder α] : List (Pick α) → List (Pick α)
  | [] => []
  | x :: xs => insertCoverDesc x (sortCoverDesc xs)

/-- Insert into a list already sorted by `cover_prob` descending, after
every `≥` element and before every strictly smaller one: the
tie-reversing twin of `insertCoverDesc`. -/
def insertCoverDescTieRev {α : Type} [LinearOrder α] (x : Pick α) :
    List (Pick α) → List (Pick α)
  | [] => [x]
  | y :: ys =>
      if y.cover_prob < x.cover_prob then x :: y :: ys
      else y :: insertCoverDescTieRev x ys

/-- Another admissible implementation of the descending sort, placing
equal-key elements in reversed input order. -/
def sortCoverDescTieRev {α : Type} [LinearOrder α] : List (Pick α) → List (Pick α)
  | [] => []
  | x :: xs => insertCoverDescTieRev x (sortCoverDescTieRev xs)

/-- The contract pandas documents for
`sort_values("Cover Prob", ascending=False, kind='quicksort')`: the
result is a permutation of the input, ordered by `cover_prob`
descending.  Tie order is NOT part of the contract. -/
def SortDescSpec {α : Type} [LinearOrder α] (s : List (Pick α) → List (Pick α)) : Prop :=
  ∀ l : List (Pick α),
    List.Perm (s l) l ∧ List.Sorted (fun a b : Pick α => b.cover_prob ≤ a.cover_prob) (s l)

/-- `top12` (app.py lines 382-384): rows with tier ≠ Pass, sorted by
cover probability descending, first 12 — with the concrete admissible
sort plugged in. -/
def top12 {α : Type} [LinearOrder α] (df : List (Pick α)) : List (Pick α) :=
  (sortCoverDesc (df.filter (fun p => p.tier ≠ Tier.pass))).take 12

/-- `top12` with the sorting step abstracted to any implementation of
the pandas sort contract. -/
def top12_with {α : Type} (s : List (Pick α) → List (Pick α)) (df : List (Pick α)) :
    List (Pick α) :=
  (s (df.filter (fun p => p.tier ≠ Tier.pass))).take 12

/-- One enumerated parlay: joint probability and its legs. -/
structure Parlay (α : Type) where
  joint_prob : α
  legs : List (Pick α)
deriving DecidableEq

/-- Insert into a list already sorted by `joint_prob` descending (stable,
matching Python's `sorted(..., key=..., reverse=True)`). -/
def insertJointDesc {α : Type} [LinearOrder α] (x : Parlay α) : List (Parlay α) → List (Parlay α)
  | [] => [x]
  | y :: ys =>
      if y.joint_prob ≤ x.joint_prob then x :: y :: ys
      else y :: insertJointDesc x ys

/-- Stable sort of parlays by `joint_prob` descending. -/
def sortJointDesc {α : Type} [LinearOrder α] : List (Parlay α) → List (Parlay α)
  | [] => []
  | x :: xs => insertJointDesc x (sortJointDesc xs)

/-- The parlay candidate pool (app.py lines 437-441): tier A or B, a
non-empty `pick_team`, sorted by cover probability descending, truncated
to the top `leg_count + 4`. -/
def parlay_pool {α : Type} [LinearOrder α] (df : List (Pick α)) (leg_count : ℕ) : List (Pick α) :=
  (sortCoverDesc
      (df.filter (fun p => (p.tier = Tier.A ∨ p.tier = Tier.B) ∧ p.pick_team ≠ ""))).take
    (leg_count + 4)

/-- Result of the parlay tab: either the "not enough Tier A/B picks"
message or the enumerated parlays. -/
inductive ParlayResult (α : Type) where
  | insufficient
  | parlays (rows : List (Parlay α))
deriving DecidableEq

/-- `enumerate_parlays` (app.py lines 443-451): if the pool is smaller
than `leg_count` report insufficiency; otherwise map every
`leg_count`-combination of the pool to a parlay whose joint probability
is the product of its legs' cover probabilities, sorted descending by
joint probability.  (`itertools.combinations` is modelled by
`List.sublistsLen`; the combinations' enumeration order differs but the
output is re-sorted by joint probability anyway.) -/
def enumerate_parlays {α : Type} [LinearOrder α] [CommMonoid α] (df : List (Pick α))
    (leg_count : ℕ) : ParlayResult α :=
  if (parlay_pool df leg_count).length < leg_count then ParlayResult.insufficient
  else
    ParlayResult.parlays (sortJointDesc (((parlay_pool df leg_count).sublistsLen leg_count).map
      (fun legs => { joint_prob := (legs.map Pick.cover_prob).prod, legs := legs })))

/-! ## Futures odds de-duplication -/

/-- One futures outcome row (`{name, team, odds, implied_prob}`,
app.py lines 269-274).  `implied_prob` is display-only data computed by
`american_to_implied` in the source; nothing downstream reads it. -/
structure Outcome where
  name : String
  team : String
  odds : ℤ
  implied_prob : ℚ
deriving DecidableEq, Repr, Inhabited

/-- Write `o` at key `k` of an association list, keeping the key's
position (Python `seen[key] = o` on an existing dict key). -/
def setValue : List (String × Outcome) → String → Outcome → List (String × Outcome)
  | [], k, o => [(k, o)]
  | (k', o') :: rest, k, o =>
      if k' = k then (k', o) :: rest else (k', o') :: setValue rest k o

/-- One iteration of the dedupe loop (app.py lines 281-284):
`if key not in seen or o["odds"] < seen[key]["odds"]: seen[key] = o`,
on an insertion-ordered dict modelled as an association list. -/
def step_seen (seen : List (String × Outcome)) (o : Outcome) : List (String × Outcome) :=
  match seen.lookup o.name with
  | none => seen ++ [(o.name, o)]
  | some prev => if o.odds < prev.odds then setValue seen o.name o else seen

/-- Insert into a list already sorted by `odds` ascending, before the
first `≥` element, so that an earlier input element precedes equal later
ones (stable, matching Python's
`sorted(seen.values(), key=lambda x: x["odds"])`). -/
def insertOddsAsc (x : Outcome) : List Outcome → List Outcome
  | [] => [x]
  | y :: ys =>
      if x.odds ≤ y.odds then x :: y :: ys
      else y :: insertOddsAsc x ys

/-- Stable sort of outcomes by `odds` ascending. -/
def sortOddsAsc : List Outcome → List Outcome
  | [] => []
  | x :: xs => insertOddsAsc x (sortOddsAsc xs)

/-- The dedupe-and-sort tail of `get_futures_odds` (app.py lines
279-286): fold the outcomes through the seen-dict, then sort the
retained values by odds ascending. -/
def dedupe_outcomes (outcomes : List Outcome) : List Outcome :=
  sortOddsAsc ((outcomes.foldl step_seen []).map Prod.snd)

/-- Merge an already-stored entry with a later candidate: the later one
wins only on strictly smaller odds (used to state the dict-fold
invariant). -/
def merge_entry (p b : Option Outcome) : Option Outcome :=
  match p, b with
  | none, b => b
  | some p, none => some p
  | some p, some b => if b.odds < p.odds then some b else some p

/-- Spec-side "best entry for a name", written from the claim's words:
the entry with numerically smallest odds among the entries with that
name, the first-seen one on ties. -/
def best_entry (name : String) : List Outcome → Option Outcome
  | [] => none
  | o :: os =>
      if o.name = name then
        match best_entry name os with
        | none => some o
        | some b => if b.odds < o.odds then some b else some o
      else best_entry name os

/-! ## Concrete evaluation fixtures -/

/-- Rating map of the spec §8 worked example: TeamX 15.0, TeamY 10.0. -/
noncomputable def ratingsW : String → Option ℝ := fun s =>
  if s = "TeamX" then some 15 else if s = "TeamY" then some 10 else none

/-- The spec §8 worked example game: TeamY at TeamX, consensus spread -4. -/
noncomputable def gameW : Game :=
  { home_team := "TeamX", away_team := "TeamY"
    lines := [{ provider := some "consensus", spread := some (-4) }] }

/-- An integer-keyed pick fixture with the given cover probability key
and tier (`ℤ` keys keep every fixture evaluation kernel-decidable). -/
def pickFix (home away team : String) (cover : ℤ) (t : Tier) : Pick ℤ :=
  { home_team := home, away_team := away, pick_team := team
    provider := some "consensus"
    sp_home_rating := 0, sp_away_rating := 0
    model_spread_home := 0, market_spread_home := 0, edge_points := 0
    cover_prob := cover, tier := t, model_pick := team }

/-- Two-pick fixture with tied cover probabilities (tie-order check). -/
def dfTieW : List (Pick ℤ) :=
  [pickFix "H1" "A1" "H1" 60 Tier.A, pickFix "H2" "A2" "H2" 60 Tier.B]

/-- Three-pick fixture with cover probability keys 70, 65, 60 (the spec
§8 parlay example pool, scaled by 100). -/
def dfParlayW : List (Pick ℤ) :=
  [pickFix "H1" "A1" "H1" 70 Tier.A, pickFix "H2" "A2" "H2" 65 Tier.A,
   pickFix "H3" "A3" "H3" 60 Tier.B]

/-- The parlay rows the fixture enumeration produces. -/
def rowsParlayW : List (Parlay ℤ) :=
  match enumerate_parlays dfParlayW 2 with
  | ParlayResult.parlays rows => rows
  | ParlayResult.insufficient => []

/-- Futures-outcome fixture: one duplicated name with a tie at the
smallest odds, plus a second name. -/
def outcomesW : List Outcome :=
  [{ name := "Ohio State", team := "dup0", odds := 300, implied_prob := 25 },
   { name := "Georgia", team := "", odds := 500, implied_prob := 17 },
   { name := "Ohio State", team := "dup1", odds := 250, implied_prob := 29 },
   { name := "Ohio State", team := "dup2", odds := 250, implied_prob := 29 }]

/-! ## Analysis of the error function -/

theorem continuous_gauss : Continuous fun t : ℝ => Real.exp (-t ^ 2) :=
  Real.continuous_exp.comp (continuous_pow 2).neg

theorem gauss_intervalIntegrable (a b : ℝ) :
    IntervalIntegrable (fun t : ℝ => Real.exp (-t ^ 2)) volume a b :=
  continuous_gauss.intervalIntegrable a b

theorem erf_zero : erf 0 = 0 := by
  simp [erf]

theorem erf_monotone : Monotone erf := by
  intro a b hab
  unfold erf
  have h1 : ((∫ t in (0:ℝ)..a, Real.exp (-t ^ 2)) + ∫ t in a..b, Real.exp (-t ^ 2))
      = ∫ t in (0:ℝ)..b, Real.exp (-t ^ 2) :=
    integral_add_adjacent_intervals (gauss_intervalIntegrable 0 a) (gauss_intervalIntegrable a b)
  have h2 : 0 ≤ ∫ t in a..b, Real.exp (-t ^ 2) :=
    intervalIntegral.integral_nonneg hab fun u _ => (Real.exp_pos _).le
  have h3 : (0:ℝ) ≤ 2 / Real.sqrt Real.pi := by positivity
  apply mul_le_mul_of_nonneg_left _ h3
  linarith

theorem erf_strictMono : StrictMono erf := by
  intro a b hab
  unfold erf
  have h1 : ((∫ t in (0:ℝ)..a, Real.exp (-t ^ 2)) + ∫ t in a..b, Real.exp (-t ^ 2))
      = ∫ t in (0:ℝ)..b, Real.exp (-t ^ 2) :=
    integral_add_adjacent_intervals (gauss_intervalIntegrable 0 a) (gauss_intervalIntegrable a b)
  have h2 : 0 < ∫ t in a..b, Real.exp (-t ^ 2) :=
    intervalIntegral_pos_of_pos_on (gauss_intervalIntegrable a b) (fun x _ => Real.exp_pos _) hab
  have h3 : (0:ℝ) < 2 / Real.sqrt Real.pi := by positivity
  apply mul_lt_mul_of_pos_left _ h3
  linarith

theorem gauss_integral_neg (x : ℝ) :
    (∫ t in (0:ℝ)..(-x), Real.exp (-t ^ 2)) = - ∫ t in (0:ℝ)..x, Real.exp (-t ^ 2) := by
  have h := intervalIntegral.integral_comp_neg (a := (0:ℝ)) (b := -x)
    (fun t : ℝ => Real.exp (-t ^ 2))
  simp only [neg_sq, neg_neg, neg_zero] at h
  rw [h, intervalIntegral.integral_symm]

theorem erf_neg (x : ℝ) : erf (-x) = - erf x := by
  unfold erf
  rw [gauss_integral_neg, mul_neg]

theorem gauss_integral_le (x : ℝ) (hx : 0 ≤ x) :
    (∫ t in (0:ℝ)..x, Real.exp (-t ^ 2)) ≤ Real.sqrt Real.pi / 2 := by
  have hint : IntegrableOn (fun t : ℝ => Real.exp (-t ^ 2)) (Ioi 0) volume := by
    have h := (integrable_exp_neg_mul_sq one_pos).integrableOn (s := Ioi (0:ℝ))
    simpa using h
  have hval : (∫ t in Ioi (0:ℝ), Real.exp (-t ^ 2)) = Real.sqrt Real.pi / 2 := by
    have h := integral_gaussian_Ioi 1
    simpa using h
  have hmono : (∫ t in Ioc (0:ℝ) x, Real.exp (-t ^ 2)) ≤ ∫ t in Ioi (0:ℝ), Real.exp (-t ^ 2) :=
    setIntegral_mono_set hint (Filter.Eventually.of_forall fun t => (Real.exp_pos _).le)
      (HasSubset.Subset.eventuallyLE Ioc_subset_Ioi_self)
  rw [intervalIntegral.integral_of_le hx]
  exact hval ▸ hmono

theorem erf_le_one (x : ℝ) : erf x ≤ 1 := by
  rcases le_or_lt 0 x with hx | hx
  · have hb := gauss_integral_le x hx
    have hπ : (0:ℝ) < Real.sqrt Real.pi := Real.sqrt_pos.mpr Real.pi_pos
    have h1 : erf x ≤ (2 / Real.sqrt Real.pi) * (Real.sqrt Real.pi / 2) :=
      mul_le_mul_of_nonneg_left hb (by positivity)
    have h2 : (2 / Real.sqrt Real.pi) * (Real.sqrt Real.pi / 2) = 1 := by
      field_simp
    linarith
  · have h1 : erf x ≤ erf 0 := erf_monotone hx.le
    rw [erf_zero] at h1
    linarith

theorem neg_one_le_erf (x : ℝ) : -1 ≤ erf x := by
  have h := erf_le_one (-x)
  rw [erf_neg] at h
  linarith

/-! ## Properties of the normal CDF -/

theorem normal_cdf_nonneg (z : ℝ) : 0 ≤ normal_cdf z := by
  have h := neg_one_le_erf (z / Real.sqrt 2.0)
  unfold normal_cdf
  linarith

theorem normal_cdf_le_one (z : ℝ) : normal_cdf z ≤ 1 := by
  have h := erf_le_one (z / Real.sqrt 2.0)
  unfold normal_cdf
  linarith

theorem normal_cdf_zero : normal_cdf 0 = 0.5 := by
  unfold normal_cdf
  rw [zero_div, erf_zero]
  norm_num

theorem normal_cdf_monotone : Monotone normal_cdf := by
  intro a b hab
  unfold normal_cdf
  have h2 : (0:ℝ) < Real.sqrt 2.0 := Real.sqrt_pos.mpr (by norm_num)
  have hd : a / Real.sqrt 2.0 ≤ b / Real.sqrt 2.0 := by gcongr
  have h := erf_monotone hd
  linarith

theorem normal_cdf_strictMono : StrictMono normal_cdf := by
  intro a b hab
  unfold normal_cdf
  have h2 : (0:ℝ) < Real.sqrt 2.0 := Real.sqrt_pos.mpr (by norm_num)
  have hd : a / Real.sqrt 2.0 < b / Real.sqrt 2.0 := by gcongr
  have h := erf_strictMono hd
  linarith

theorem normal_cdf_neg (z : ℝ) : normal_cdf (-z) = 1 - normal_cdf z := by
  unfold normal_cdf
  rw [neg_div, erf_neg]
  ring

/-- The two perspectives of one game have complementary cover
probabilities: mirroring both the margin and the spread flips the CDF
argument, and `Φ(-x) = 1 - Φ(x)` because `erf` is odd. -/
theorem cover_probability_mirror (m s σ : ℝ) :
    cover_probability m s σ + cover_probability (-m) (-s) σ = 1 := by
  unfold cover_probability
  have hx : (-(-s) - -m) / σ = -((-s - m) / σ) := by ring
  rw [hx, normal_cdf_neg]
  ring

/-! ## Claim theorems: probability engine and per-row model -/

/-- C3: `classify_tier` is a total step function of the cover
probability with boundaries inclusive on the lower edge: `A` iff
`p ≥ 0.60`, `B` iff `0.55 ≤ p < 0.60`, `C` iff `0.52 ≤ p < 0.55`,
`Pass` iff `p < 0.52`; in particular `classify(0.60) = A`,
`classify(0.599999) = B`, `classify(0.55) = B`, `classify(0.52) = C`
and `classify(0.519999) = Pass`. -/
theorem classify_tier_step_function (p : ℝ) :
    (classify_tier p = Tier.A ↔ 0.60 ≤ p) ∧
    (classify_tier p = Tier.B ↔ 0.55 ≤ p ∧ p < 0.60) ∧
    (classify_tier p = Tier.C ↔ 0.52 ≤ p ∧ p < 0.55) ∧
    (classify_tier p = Tier.pass ↔ p < 0.52) ∧
    classify_tier 0.60 = Tier.A ∧ classify_tier 0.599999 = Tier.B ∧
    classify_tier 0.55 = Tier.B ∧ classify_tier 0.52 = Tier.C ∧
    classify_tier 0.519999 = Tier.pass := by
  have hA : ∀ q : ℝ, classify_tier q = Tier.A ↔ 0.60 ≤ q := by
    intro q
    unfold classify_tier
    split_ifs with h1 h2 h3 <;> simp_all <;> linarith
  have hB : ∀ q : ℝ, classify_tier q = Tier.B ↔ 0.55 ≤ q ∧ q < 0.60 := by
    intro q
    unfold classify_tier
    split_ifs with h1 h2 h3 <;> simp_all <;> intro h <;> linarith
  have hC : ∀ q : ℝ, classify_tier q = Tier.C ↔ 0.52 ≤ q ∧ q < 0.55 := by
    intro q
    unfold classify_tier
    split_ifs with h1 h2 h3 <;> simp_all <;> intro h <;> linarith
  have hP : ∀ q : ℝ, classify_tier q = Tier.pass ↔ q < 0.52 := by
    intro q
    unfold classify_tier
    split_ifs with h1 h2 h3 <;> simp_all <;> linarith
  refine ⟨hA p, hB p, hC p, hP p, (hA _).mpr (by norm_num), (hB _).mpr (by norm_num),
    (hB _).mpr (by norm_num), (hC _).mpr (by norm_num), (hP _).mpr (by norm_num)⟩

/-- C7: for positive `std_dev` the cover probability lies in `[0, 1]`
and is monotonically non-decreasing in the model margin, the market
spread and the standard deviation held fixed. -/
theorem cover_probability_bounds_monotone (m s σ : ℝ) (hσ : 0 < σ) :
    (0 ≤ cover_probability m s σ ∧ cover_probability m s σ ≤ 1) ∧
    (∀ m1 m2 : ℝ, m1 ≤ m2 → cover_probability m1 s σ ≤ cover_probability m2 s σ) := by
  constructor
  · unfold cover_probability
    have h1 := normal_cdf_le_one ((-s - m) / σ)
    have h2 := normal_cdf_nonneg ((-s - m) / σ)
    constructor <;> linarith
  · intro m1 m2 h
    unfold cover_probability
    have hnum : -s - m2 ≤ -s - m1 := by linarith
    have hz : (-s - m2) / σ ≤ (-s - m1) / σ := by gcongr
    have := normal_cdf_monotone hz
    linarith

/-- Witness for C7 at `m = 0`, `s = 0`, `σ = 1`, checking the bounds and
one monotonicity instance `cover(0,0,1) ≤ cover(1,0,1)`. -/
theorem cover_probability_bounds_monotone_witness :
    (0 ≤ cover_probability 0 0 1 ∧ cover_probability 0 0 1 ≤ 1) ∧
    cover_probability 0 0 1 ≤ cover_probability 1 0 1 :=
  ⟨(cover_probability_bounds_monotone 0 0 1 (by norm_num)).1,
    (cover_probability_bounds_monotone 0 0 1 (by norm_num)).2 0 1 (by norm_num)⟩

/-- C8 counterexample: the claimed failure of the mirror identity does
not exist — in exact real arithmetic there are no `m`, `s`, `σ > 0` with
`cover_probability m s σ + cover_probability (-m) (-s) σ ≠ 1`; the
asymmetry the spec documents is at most a floating-point rounding
artifact. -/
theorem cover_probability_mirror_no_asymmetry :
    ¬ ∃ m s σ : ℝ, 0 < σ ∧
      cover_probability m s σ + cover_probability (-m) (-s) σ ≠ 1 := by
  rintro ⟨m, s, σ, _, hne⟩
  exact hne (cover_probability_mirror m s σ)

/-- C8 amended: `cover_probability(m, s, σ) + cover_probability(-m, -s, σ) = 1`
holds for ALL inputs, and the code's away-side probability
`1 - home_cover` coincides with the mirrored-perspective cover
probability — the two formulations the spec contrasts are the same. -/
theorem cover_probability_mirror_identity (m s σ : ℝ) :
    cover_probability m s σ + cover_probability (-m) (-s) σ = 1 ∧
    1 - cover_probability m s σ = cover_probability (-m) (-s) σ := by
  have h := cover_probability_mirror m s σ
  constructor
  · exact h
  · linarith

/-- C1: for a non-excluded game the computed row fields match the spec's
reference formulas: `model_spread_home = (rating[home] - rating[away]) +
home_field_pts`, `edge_points = model_spread_home + market_spread_home`
(added, not subtracted), and the home cover probability entering the row
is `1 - Φ((-market_spread - model_spread_home) / std_dev)` with
`Φ(z) = 0.5 * (1 + erf (z / √2))`. -/
theorem pick_row_matches_reference_formulas (home away : String) (prov : Option String)
    (rh ra market hf σ : ℝ) (hσ : 0 < σ) :
    (pick_row home away prov rh ra market hf σ).model_spread_home = (rh - ra) + hf ∧
    (pick_row home away prov rh ra market hf σ).market_spread_home = market ∧
    (pick_row home away prov rh ra market hf σ).edge_points = ((rh - ra) + hf) + market ∧
    cover_probability ((rh - ra) + hf) market σ
      = 1 - 0.5 * (1 + erf ((-market - ((rh - ra) + hf)) / σ / Real.sqrt 2)) ∧
    (pick_row home away prov rh ra market hf σ).cover_prob =
      (if 0 < ((rh - ra) + hf) + market then cover_probability ((rh - ra) + hf) market σ
       else if ((rh - ra) + hf) + market < 0 then
         1 - cover_probability ((rh - ra) + hf) market σ
       else 0.5) := by
  refine ⟨rfl, rfl, rfl, ?_, ?_⟩
  · unfold cover_probability normal_cdf
    norm_num
  · show (if 0 < ((rh - ra) + hf) + market then _ else _ : String × ℝ × String).2.1 = _
    unfold cover_probability normal_cdf
    split_ifs <;> norm_num

/-- Witness for C1 at the spec §8 worked example: ratings 15 and 10,
home field 2.5, market spread −4, σ = 13. -/
theorem pick_row_matches_reference_formulas_witness :
    (pick_row "TeamX" "TeamY" (some "consensus") 15 10 (-4) 2.5 13).model_spread_home
        = (15 - 10) + 2.5 ∧
    (pick_row "TeamX" "TeamY" (some "consensus") 15 10 (-4) 2.5 13).market_spread_home = -4 ∧
    (pick_row "TeamX" "TeamY" (some "consensus") 15 10 (-4) 2.5 13).edge_points
        = ((15 - 10) + 2.5) + -4 ∧
    cover_probability ((15 - 10) + 2.5) (-4) 13
      = 1 - 0.5 * (1 + erf ((-(-4) - ((15 - 10) + 2.5)) / 13 / Real.sqrt 2)) ∧
    (pick_row "TeamX" "TeamY" (some "consensus") 15 10 (-4) 2.5 13).cover_prob =
      (if 0 < ((15 - 10) + 2.5) + (-4:ℝ) then cover_probability ((15 - 10) + 2.5) (-4) 13
       else if ((15 - 10) + 2.5) + (-4:ℝ) < 0 then
         1 - cover_probability ((15 - 10) + 2.5) (-4) 13
       else 0.5) :=
  pick_row_matches_reference_formulas "TeamX" "TeamY" (some "consensus") 15 10 (-4) 2.5 13
    (by norm_num)

/-- C2: side selection is a deterministic function of the sign of the
edge: positive edge picks the home team with the home cover probability,
negative edge picks the away team with its complement, zero edge yields
the `NO EDGE` sentinel with probability 0.5, no team and tier `Pass`. -/
theorem pick_row_side_selection (home away : String) (prov : Option String)
    (rh ra market hf σ : ℝ) :
    (0 < ((rh - ra) + hf) + market →
      (pick_row home away prov rh ra market hf σ).pick_team = home ∧
      (pick_row home away prov rh ra market hf σ).cover_prob
        = 1 - normal_cdf ((-market - ((rh - ra) + hf)) / σ) ∧
      (pick_row home away prov rh ra market hf σ).model_pick = "HOME (" ++ home ++ ")") ∧
    (((rh - ra) + hf) + market < 0 →
      (pick_row home away prov rh ra market hf σ).pick_team = away ∧
      (pick_row home away prov rh ra market hf σ).cover_prob
        = 1 - (1 - normal_cdf ((-market - ((rh - ra) + hf)) / σ)) ∧
      (pick_row home away prov rh ra market hf σ).model_pick = "AWAY (" ++ away ++ ")") ∧
    (((rh - ra) + hf) + market = 0 →
      (pick_row home away prov rh ra market hf σ).pick_team = "" ∧
      (pick_row home away prov rh ra market hf σ).cover_prob = 0.5 ∧
      (pick_row home away prov rh ra market hf σ).model_pick = "NO EDGE" ∧
      (pick_row home away prov rh ra market hf σ).tier = Tier.pass) := by
  refine ⟨fun h => ?_, fun h => ?_, fun h => ?_⟩
  · simp only [pick_row]
    rw [if_pos (show (rh - ra + hf) + market > 0 from h)]
    exact ⟨rfl, by norm_num, rfl⟩
  · simp only [pick_row]
    rw [if_neg (show ¬((rh - ra + hf) + market > 0) by linarith),
      if_pos (show (rh - ra + hf) + market < 0 from h)]
    exact ⟨rfl, by norm_num, rfl⟩
  · simp only [pick_row]
    rw [if_neg (show ¬((rh - ra + hf) + market > 0) by linarith),
      if_neg (show ¬((rh - ra + hf) + market < 0) by linarith)]
    refine ⟨rfl, by norm_num, rfl, ?_⟩
    show classify_tier 0.5 = Tier.pass
    unfold classify_tier
    norm_num

/-- Witness for C2: the zero-edge sentinel at ratings 10/10, home field
0, market spread 0, and the home branch at the spec §8 example. -/
theorem pick_row_side_selection_witness :
    (pick_row "TeamX" "TeamY" (some "consensus") 10 10 0 0 13).pick_team = "" ∧
    (pick_row "TeamX" "TeamY" (some "consensus") 10 10 0 0 13).cover_prob = 0.5 ∧
    (pick_row "TeamX" "TeamY" (some "consensus") 10 10 0 0 13).model_pick = "NO EDGE" ∧
    (pick_row "TeamX" "TeamY" (some "consensus") 10 10 0 0 13).tier = Tier.pass :=
  (pick_row_side_selection "TeamX" "TeamY" (some "consensus") 10 10 0 0 13).2.2 (by norm_num)

/-- Every row `build_picks` emits is `pick_row` at some parameters. -/
theorem mem_build_picks {ratings : String → Option ℝ} {games : List Game} {hf σ : ℝ}
    {prov : String} {row : Pick ℝ} (h : row ∈ build_picks ratings games hf σ prov) :
    ∃ home away p rh ra market, row = pick_row home away p rh ra market hf σ := by
  unfold build_picks at h
  rw [List.mem_filterMap] at h
  obtain ⟨g, _, hsome⟩ := h
  repeat' split at hsome
  all_goals simp only [Option.some.injEq, reduceCtorEq] at hsome
  exact ⟨_, _, _, _, _, _, hsome.symm⟩

/-- The side-specific cover probability of a computed row is at least
one half, equal to one half exactly on zero edge, and strictly above one
half whenever a team is attached. -/
theorem pick_row_cover_half (home away : String) (p : Option String)
    (rh ra market hf σ : ℝ) (hσ : 0 < σ) :
    1/2 ≤ (pick_row home away p rh ra market hf σ).cover_prob ∧
    ((pick_row home away p rh ra market hf σ).cover_prob = 1/2 ↔
      (pick_row home away p rh ra market hf σ).edge_points = 0) ∧
    ((pick_row home away p rh ra market hf σ).pick_team ≠ "" →
      1/2 < (pick_row home away p rh ra market hf σ).cover_prob) := by
  have hedge : (pick_row home away p rh ra market hf σ).edge_points
      = (rh - ra + hf) + market := rfl
  rcases lt_trichotomy ((rh - ra + hf) + market) 0 with h | h | h
  · have hz : 0 < (-market - (rh - ra + hf)) / σ := div_pos (by linarith) hσ
    have hΦ : 1/2 < normal_cdf ((-market - (rh - ra + hf)) / σ) := by
      have hm := normal_cdf_strictMono hz
      rw [normal_cdf_zero] at hm
      linarith
    have hcov : (pick_row home away p rh ra market hf σ).cover_prob
        = 1.0 - (1.0 - normal_cdf ((-market - (rh - ra + hf)) / σ)) := by
      simp only [pick_row]
      rw [if_neg (show ¬((rh - ra + hf) + market > 0) by linarith),
        if_pos (show (rh - ra + hf) + market < 0 from h)]
    rw [hcov, hedge]
    refine ⟨by linarith, ?_, fun _ => by linarith⟩
    constructor
    · intro hc
      linarith
    · intro hc
      linarith
  · have hcov : (pick_row home away p rh ra market hf σ).cover_prob = 0.5 := by
      simp only [pick_row]
      rw [if_neg (show ¬((rh - ra + hf) + market > 0) by linarith),
        if_neg (show ¬((rh - ra + hf) + market < 0) by linarith)]
    have hteam : (pick_row home away p rh ra market hf σ).pick_team = "" := by
      simp only [pick_row]
      rw [if_neg (show ¬((rh - ra + hf) + market > 0) by linarith),
        if_neg (show ¬((rh - ra + hf) + market < 0) by linarith)]
    rw [hcov, hedge, hteam]
    refine ⟨by norm_num, by constructor <;> intro <;> first | linarith | norm_num, ?_⟩
    intro hne
    exact absurd rfl hne
  · have hz : (-market - (rh - ra + hf)) / σ < 0 := div_neg_of_neg_of_pos (by linarith) hσ
    have hΦ : normal_cdf ((-market - (rh - ra + hf)) / σ) < 1/2 := by
      have hm := normal_cdf_strictMono hz
      rw [normal_cdf_zero] at hm
      linarith
    have hcov : (pick_row home away p rh ra market hf σ).cover_prob
        = 1.0 - normal_cdf ((-market - (rh - ra + hf)) / σ) := by
      simp only [pick_row]
      rw [if_pos (show (rh - ra + hf) + market > 0 from h)]
    rw [hcov, hedge]
    refine ⟨by linarith, ?_, fun _ => by linarith⟩
    constructor
    · intro hc
      linarith
    · intro hc
      linarith

/-- C10 (implicit invariant): every emitted pick has side-specific
cover probability at least 0.5, with equality exactly when the edge is
zero, so a pick with a team attached always has cover probability
strictly above one half. -/
theorem build_picks_cover_ge_half (ratings : String → Option ℝ) (games : List Game)
    (hf σ : ℝ) (prov : String) (row : Pick ℝ) (hσ : 0 < σ)
    (hmem : row ∈ build_picks ratings games hf σ prov) :
    1/2 ≤ row.cover_prob ∧ (row.cover_prob = 1/2 ↔ row.edge_points = 0) ∧
      (row.pick_team ≠ "" → 1/2 < row.cover_prob) := by
  obtain ⟨home, away, p, rh, ra, market, rfl⟩ := mem_build_picks hmem
  exact pick_row_cover_half home away p rh ra market hf σ hσ

/-- `pick_line` at the concrete fixture game. -/
theorem pick_line_gameW :
    pick_line gameW "consensus" = some { provider := some "consensus", spread := some (-4) } := by
  simp [pick_line, gameW, List.find?]

/-- `build_picks` at the concrete fixture inputs. -/
theorem build_picks_gameW :
    build_picks ratingsW [gameW] 2.5 13 "consensus"
      = [pick_row "TeamX" "TeamY" (some "consensus") 15 10 (-4) 2.5 13] := by
  unfold build_picks
  rw [List.filterMap_cons, pick_line_gameW]
  simp +decide [gameW, ratingsW]

/-- Witness for C10 at the fixture game: ratings 15/10, spread −4. -/
theorem build_picks_cover_ge_half_witness :
    1/2 ≤ (pick_row "TeamX" "TeamY" (some "consensus") 15 10 (-4) 2.5 13).cover_prob ∧
    ((pick_row "TeamX" "TeamY" (some "consensus") 15 10 (-4) 2.5 13).cover_prob = 1/2 ↔
      (pick_row "TeamX" "TeamY" (some "consensus") 15 10 (-4) 2.5 13).edge_points = 0) ∧
    ((pick_row "TeamX" "TeamY" (some "consensus") 15 10 (-4) 2.5 13).pick_team ≠ "" →
      1/2 < (pick_row "TeamX" "TeamY" (some "consensus") 15 10 (-4) 2.5 13).cover_prob) := by
  apply build_picks_cover_ge_half ratingsW [gameW] 2.5 13 "consensus" _ (by norm_num)
  rw [build_picks_gameW]
  exact List.mem_singleton_self _

/-- The code's `pick_line` coincides with the spec's
preferred-provider-with-fallback-to-first selection rule. -/
theorem pick_line_eq_select_line_spec (g : Game) (pref : String) :
    pick_line g pref = select_line_spec g pref := by
  unfold pick_line select_line_spec
  cases hl : g.lines with
  | nil => rfl
  | cons l ls =>
      show (match List.find? (fun ln => (ln.provider.getD "").toLower == pref.toLower)
              (l :: ls) with
            | some ln => some ln
            | none => some l)
          = (match List.find? (fun ln => (ln.provider.getD "").toLower == pref.toLower)
              (l :: ls) with
            | some ln => some ln
            | none => (l :: ls).head?)
      cases List.find? (fun ln => (ln.provider.getD "").toLower == pref.toLower) (l :: ls) <;>
        rfl

/-- A game produces no row exactly when the spec's exclusion condition
holds: missing selected line or spread, or a missing team rating. -/
theorem row_spec_none_iff_excluded (ratings : String → Option ℝ) (g : Game) (prov : String)
    (hf σ : ℝ) :
    row_spec ratings g prov hf σ = none ↔ excluded_spec ratings g prov = true := by
  unfold row_spec excluded_spec
  cases hsel : select_line_spec g prov with
  | none => simp
  | some ln =>
      cases hsp : ln.spread with
      | none => simp [hsp]
      | some market =>
          cases hrh : ratings g.home_team with
          | none => simp [hsp, hrh]
          | some rh =>
              cases hra : ratings g.away_team with
              | none => simp [hsp, hrh, hra]
              | some ra => simp [hsp, hrh, hra]

/-- `build_picks` is the per-game spec-side processing mapped over the
game list. -/
theorem build_picks_eq_filterMap_row_spec (ratings : String → Option ℝ) (games : List Game)
    (hf σ : ℝ) (prov : String) :
    build_picks ratings games hf σ prov
      = games.filterMap (fun g => row_spec ratings g prov hf σ) := by
  unfold build_picks row_spec
  congr 1
  funext g
  rw [← pick_line_eq_select_line_spec]
  repeat' split
  all_goals first
    | rfl
    | simp_all

/-- C6: each game's line is chosen by preferred-provider-with-fallback,
and a game is silently excluded from the output — with every other game
still processed — exactly when the selected line's spread is missing or
either team is absent from the rating map. -/
theorem build_picks_selection_and_exclusion (ratings : String → Option ℝ) (games : List Game)
    (hf σ : ℝ) (prov : String) :
    build_picks ratings games hf σ prov
        = games.filterMap (fun g => row_spec ratings g prov hf σ) ∧
    (∀ g : Game, pick_line g prov = select_line_spec g prov) ∧
    (∀ g : Game, row_spec ratings g prov hf σ = none ↔ excluded_spec ratings g prov = true) ∧
    (build_picks ratings games hf σ prov).length
        = (games.filter (fun g => !excluded_spec ratings g prov)).length := by
  refine ⟨build_picks_eq_filterMap_row_spec ratings games hf σ prov,
    fun g => pick_line_eq_select_line_spec g prov,
    fun g => row_spec_none_iff_excluded ratings g prov hf σ, ?_⟩
  rw [build_picks_eq_filterMap_row_spec]
  induction games with
  | nil => rfl
  | cons g gs ih =>
      rw [List.filterMap_cons, List.filter_cons]
      cases hrow : row_spec ratings g prov hf σ with
      | none =>
          have hex : excluded_spec ratings g prov = true :=
            (row_spec_none_iff_excluded ratings g prov hf σ).mp hrow
          simp [hex, ih]
      | some r =>
          have hex : excluded_spec ratings g prov = false := by
            cases hb : excluded_spec ratings g prov with
            | false => rfl
            | true =>
                have := (row_spec_none_iff_excluded ratings g prov hf σ).mpr hb
                rw [hrow] at this
                exact absurd this (by simp)
          simp [hex, ih]

/-- Witness for C6 at the fixture inputs. -/
theorem build_picks_selection_and_exclusion_witness :
    pick_line gameW "consensus" = select_line_spec gameW "consensus" ∧
    (row_spec ratingsW gameW "consensus" 2.5 13 = none ↔
      excluded_spec ratingsW gameW "consensus" = true) ∧
    (build_picks ratingsW [gameW] 2.5 13 "consensus").length
        = ([gameW].filter (fun g => !excluded_spec ratingsW g "consensus")).length :=
  ⟨(build_picks_selection_and_exclusion ratingsW [gameW] 2.5 13 "consensus").2.1 gameW,
    (build_picks_selection_and_exclusion ratingsW [gameW] 2.5 13 "consensus").2.2.1 gameW,
    (build_picks_selection_and_exclusion ratingsW [gameW] 2.5 13 "consensus").2.2.2⟩

/-! ## Sorting machinery for the aggregation stages -/

theorem insertCoverDesc_perm {α : Type} [LinearOrder α] (x : Pick α) (l : List (Pick α)) :
    List.Perm (insertCoverDesc x l) (x :: l) := by
  induction l with
  | nil => exact List.Perm.refl _
  | cons y ys ih =>
      unfold insertCoverDesc
      by_cases h : y.cover_prob ≤ x.cover_prob
      · rw [if_pos h]
      · rw [if_neg h]
        exact (List.Perm.cons y ih).trans (List.Perm.swap x y ys)

theorem sortCoverDesc_perm {α : Type} [LinearOrder α] (l : List (Pick α)) :
    List.Perm (sortCoverDesc l) l := by
  induction l with
  | nil => exact List.Perm.refl _
  | cons x xs ih =>
      exact (insertCoverDesc_perm x (sortCoverDesc xs)).trans (List.Perm.cons x ih)

theorem sorted_insertCoverDesc {α : Type} [LinearOrder α] (x : Pick α) (l : List (Pick α))
    (h : List.Sorted (fun a b : Pick α => b.cover_prob ≤ a.cover_prob) l) :
    List.Sorted (fun a b : Pick α => b.cover_prob ≤ a.cover_prob) (insertCoverDesc x l) := by
  induction l with
  | nil => simp [insertCoverDesc]
  | cons y ys ih =>
      rw [List.sorted_cons] at h
      unfold insertCoverDesc
      by_cases hc : y.cover_prob ≤ x.cover_prob
      · rw [if_pos hc, List.sorted_cons]
        refine ⟨?_, ?_⟩
        · intro b hb
          rcases List.mem_cons.mp hb with rfl | hb2
          · exact hc
          · exact le_trans (h.1 b hb2) hc
        · rw [List.sorted_cons]
          exact h
      · rw [if_neg hc, List.sorted_cons]
        refine ⟨?_, ih h.2⟩
        intro b hb
        rcases List.mem_cons.mp ((insertCoverDesc_perm x ys).mem_iff.mp hb) with rfl | hb2
        · exact (not_le.mp hc).le
        · exact h.1 b hb2

theorem sortCoverDesc_sorted {α : Type} [LinearOrder α] (l : List (Pick α)) :
    List.Sorted (fun a b : Pick α => b.cover_prob ≤ a.cover_prob) (sortCoverDesc l) := by
  induction l with
  | nil => simp [sortCoverDesc]
  | cons x xs ih => exact sorted_insertCoverDesc x (sortCoverDesc xs) ih

theorem insertCoverDescTieRev_perm {α : Type} [LinearOrder α] (x : Pick α)
    (l : List (Pick α)) : List.Perm (insertCoverDescTieRev x l) (x :: l) := by
  induction l with
  | nil => exact List.Perm.refl _
  | cons y ys ih =>
      unfold insertCoverDescTieRev
      by_cases h : y.cover_prob < x.cover_prob
      · rw [if_pos h]
      · rw [if_neg h]
        exact (List.Perm.cons y ih).trans (List.Perm.swap x y ys)

theorem sortCoverDescTieRev_perm {α : Type} [LinearOrder α] (l : List (Pick α)) :
    List.Perm (sortCoverDescTieRev l) l := by
  induction l with
  | nil => exact List.Perm.refl _
  | cons x xs ih =>
      exact (insertCoverDescTieRev_perm x (sortCoverDescTieRev xs)).trans (List.Perm.cons x ih)

theorem sorted_insertCoverDescTieRev {α : Type} [LinearOrder α] (x : Pick α)
    (l : List (Pick α))
    (h : List.Sorted (fun a b : Pick α => b.cover_prob ≤ a.cover_prob) l) :
    List.Sorted (fun a b : Pick α => b.cover_prob ≤ a.cover_prob)
      (insertCoverDescTieRev x l) := by
  induction l with
  | nil => simp [insertCoverDescTieRev]
  | cons y ys ih =>
      rw [List.sorted_cons] at h
      unfold insertCoverDescTieRev
      by_cases hc : y.cover_prob < x.cover_prob
      · rw [if_pos hc, List.sorted_cons]
        refine ⟨?_, ?_⟩
        · intro b hb
          rcases List.mem_cons.mp hb with rfl | hb2
          · exact hc.le
          · exact le_trans (h.1 b hb2) hc.le
        · rw [List.sorted_cons]
          exact h
      · rw [if_neg hc, List.sorted_cons]
        refine ⟨?_, ih h.2⟩
        intro b hb
        rcases List.mem_cons.mp ((insertCoverDescTieRev_perm x ys).mem_iff.mp hb) with rfl | hb2
        · exact not_lt.mp hc
        · exact h.1 b hb2

theorem sortCoverDescTieRev_sorted {α : Type} [LinearOrder α] (l : List (Pick α)) :
    List.Sorted (fun a b : Pick α => b.cover_prob ≤ a.cover_prob) (sortCoverDescTieRev l) := by
  induction l with
  | nil => simp [sortCoverDescTieRev]
  | cons x xs ih => exact sorted_insertCoverDescTieRev x (sortCoverDescTieRev xs) ih

/-- The tie-reversing sort also satisfies the pandas sort contract. -/
theorem sortCoverDescTieRev_sortDescSpec {α : Type} [LinearOrder α] :
    SortDescSpec (fun l : List (Pick α) => sortCoverDescTieRev l) :=
  fun l => ⟨sortCoverDescTieRev_perm l, sortCoverDescTieRev_sorted l⟩

/-- C4 counterexample: the claimed universal tie-order property fails on
the code's sort contract.  `sort_values` with the default
`kind='quicksort'` guarantees only a descending-sorted permutation, and
an admissible sort under that contract — the tie-reversing
`sortCoverDescTieRev` — produces the two equal-cover picks of a concrete
two-pick input in reversed input order, so "for every pair of picks with
equal cover_prob, their relative order in the Top-N output equals their
original input order" does not hold of app.py lines 382-384. -/
theorem top12_tie_stability_fails :
    ¬ ∀ s : List (Pick ℤ) → List (Pick ℤ), SortDescSpec s →
        ∀ (df : List (Pick ℤ)) (v : ℤ),
          (top12_with s df).filter (fun p => p.cover_prob == v)
            <+: ((df.filter (fun p => p.tier ≠ Tier.pass)).filter
                  (fun p => p.cover_prob == v)) := by
  intro h
  exact absurd (h sortCoverDescTieRev sortCoverDescTieRev_sortDescSpec dfTieW 60) (by decide)

/-- C4 amended: for EVERY sort satisfying the pandas contract, the
top-12 view consists of picks with tier ≠ Pass, is a sub-permutation of
the eligible picks ordered by cover probability descending, and has
length `min 12` of the eligible count; tie order is unspecified (the
default quicksort is not stable), and the file's concrete `top12` is the
abstract view at one admissible sort. -/
theorem top12_spec_amended {α : Type} [LinearOrder α] (df : List (Pick α))
    (s : List (Pick α) → List (Pick α)) (hs : SortDescSpec s) :
    (∀ p, p ∈ top12_with s df → p ∈ df ∧ p.tier ≠ Tier.pass) ∧
    List.Subperm (top12_with s df) (df.filter (fun p => p.tier ≠ Tier.pass)) ∧
    (top12_with s df).length = min 12 (df.filter (fun p => p.tier ≠ Tier.pass)).length ∧
    List.Sorted (fun a b : Pick α => b.cover_prob ≤ a.cover_prob) (top12_with s df) ∧
    top12 df = top12_with (fun l : List (Pick α) => sortCoverDesc l) df ∧
    SortDescSpec (fun l : List (Pick α) => sortCoverDesc l) := by
  have hperm := (hs (df.filter (fun p => p.tier ≠ Tier.pass))).1
  have hsorted := (hs (df.filter (fun p => p.tier ≠ Tier.pass))).2
  have htop : top12_with s df = (s (df.filter (fun p => p.tier ≠ Tier.pass))).take 12 := rfl
  have htake : (s (df.filter (fun p => p.tier ≠ Tier.pass))).take 12
      <+: s (df.filter (fun p => p.tier ≠ Tier.pass)) := List.take_prefix _ _
  rw [htop]
  refine ⟨?_, ?_, ?_, ?_, rfl, fun l => ⟨sortCoverDesc_perm l, sortCoverDesc_sorted l⟩⟩
  · intro p hp
    have h1 : p ∈ s (df.filter (fun p => p.tier ≠ Tier.pass)) :=
      htake.sublist.subset hp
    have h2 := hperm.mem_iff.mp h1
    have h3 := List.mem_filter.mp h2
    exact ⟨h3.1, by simpa using h3.2⟩
  · exact htake.sublist.subperm.trans hperm.subperm
  · rw [List.length_take, hperm.length_eq]
  · exact List.Pairwise.sublist htake.sublist hsorted

/-- Witness for the amended C4 at the two-pick integer-keyed fixture,
with the tie-reversing admissible sort plugged in. -/
theorem top12_spec_amended_witness :
    pickFix "H2" "A2" "H2" 60 Tier.B ∈ dfTieW ∧
      (pickFix "H2" "A2" "H2" 60 Tier.B).tier ≠ Tier.pass :=
  (top12_spec_amended dfTieW sortCoverDescTieRev sortCoverDescTieRev_sortDescSpec).1
    (pickFix "H2" "A2" "H2" 60 Tier.B) (by decide)

theorem insertJointDesc_perm {α : Type} [LinearOrder α] (x : Parlay α) (l : List (Parlay α)) :
    List.Perm (insertJointDesc x l) (x :: l) := by
  induction l with
  | nil => exact List.Perm.refl _
  | cons y ys ih =>
      unfold insertJointDesc
      by_cases h : y.joint_prob ≤ x.joint_prob
      · rw [if_pos h]
      · rw [if_neg h]
        exact (List.Perm.cons y ih).trans (List.Perm.swap x y ys)

theorem sortJointDesc_perm {α : Type} [LinearOrder α] (l : List (Parlay α)) :
    List.Perm (sortJointDesc l) l := by
  induction l with
  | nil => exact List.Perm.refl _
  | cons x xs ih =>
      exact (insertJointDesc_perm x (sortJointDesc xs)).trans (List.Perm.cons x ih)

theorem sorted_insertJointDesc {α : Type} [LinearOrder α] (x : Parlay α) (l : List (Parlay α))
    (h : List.Sorted (fun a b : Parlay α => b.joint_prob ≤ a.joint_prob) l) :
    List.Sorted (fun a b : Parlay α => b.joint_prob ≤ a.joint_prob) (insertJointDesc x l) := by
  induction l with
  | nil => simp [insertJointDesc]
  | cons y ys ih =>
      rw [List.sorted_cons] at h
      unfold insertJointDesc
      by_cases hc : y.joint_prob ≤ x.joint_prob
      · rw [if_pos hc, List.sorted_cons]
        refine ⟨?_, ?_⟩
        · intro b hb
          rcases List.mem_cons.mp hb with rfl | hb2
          · exact hc
          · exact le_trans (h.1 b hb2) hc
        · rw [List.sorted_cons]
          exact h
      · rw [if_neg hc, List.sorted_cons]
        refine ⟨?_, ih h.2⟩
        intro b hb
        rcases List.mem_cons.mp ((insertJointDesc_perm x ys).mem_iff.mp hb) with rfl | hb2
        · exact (not_le.mp hc).le
        · exact h.1 b hb2

theorem sortJointDesc_sorted {α : Type} [LinearOrder α] (l : List (Parlay α)) :
    List.Sorted (fun a b : Parlay α => b.joint_prob ≤ a.joint_prob) (sortJointDesc l) := by
  induction l with
  | nil => simp [sortJointDesc]
  | cons x xs ih => exact sorted_insertJointDesc x (sortJointDesc xs) ih

/-- C5: the parlay pool is exactly the tier-A/B picks with a team
attached, sorted by cover probability descending and truncated to
`leg_count + 4`; a pool smaller than `leg_count` reports the
insufficient-picks condition; otherwise the output enumerates every
`leg_count`-combination of the pool, each priced at the product of its
legs' cover probabilities, ordered by joint probability descending. -/
theorem enumerate_parlays_spec {α : Type} [LinearOrder α] [CommMonoid α]
    (df : List (Pick α)) (k : ℕ) :
    List.Subperm (parlay_pool df k)
        (df.filter (fun p => (p.tier = Tier.A ∨ p.tier = Tier.B) ∧ p.pick_team ≠ "")) ∧
    List.Sorted (fun a b : Pick α => b.cover_prob ≤ a.cover_prob) (parlay_pool df k) ∧
    (parlay_pool df k).length
        = min (k + 4)
          (df.filter (fun p => (p.tier = Tier.A ∨ p.tier = Tier.B) ∧ p.pick_team ≠ "")).length ∧
    (enumerate_parlays df k = ParlayResult.insufficient ↔ (parlay_pool df k).length < k) ∧
    (∀ rows, enumerate_parlays df k = ParlayResult.parlays rows →
      rows.length = Nat.choose (parlay_pool df k).length k ∧
      List.Sorted (fun a b : Parlay α => b.joint_prob ≤ a.joint_prob) rows ∧
      (∀ pr ∈ rows, pr.joint_prob = (pr.legs.map Pick.cover_prob).prod ∧
        List.Sublist pr.legs (parlay_pool df k) ∧ pr.legs.length = k) ∧
      (∀ legs, List.Sublist legs (parlay_pool df k) → legs.length = k →
        ∃ pr ∈ rows, pr.legs = legs)) := by
  have hpool : parlay_pool df k
      = (sortCoverDesc
          (df.filter (fun p => (p.tier = Tier.A ∨ p.tier = Tier.B) ∧ p.pick_team ≠ ""))).take
        (k + 4) := rfl
  have hperm := sortCoverDesc_perm
    (df.filter (fun p => (p.tier = Tier.A ∨ p.tier = Tier.B) ∧ p.pick_team ≠ ""))
  have htake : (sortCoverDesc
        (df.filter (fun p => (p.tier = Tier.A ∨ p.tier = Tier.B) ∧ p.pick_team ≠ ""))).take
        (k + 4)
      <+: sortCoverDesc
        (df.filter (fun p => (p.tier = Tier.A ∨ p.tier = Tier.B) ∧ p.pick_team ≠ "")) :=
    List.take_prefix _ _
  refine ⟨?_, ?_, ?_, ?_, ?_⟩
  · rw [hpool]
    exact htake.sublist.subperm.trans hperm.subperm
  · rw [hpool]
    exact List.Pairwise.sublist htake.sublist (sortCoverDesc_sorted _)
  · rw [hpool, List.length_take, hperm.length_eq]
  · unfold enumerate_parlays
    split_ifs with h
    · simp [h]
    · simp [h]
  · intro rows hrows
    unfold enumerate_parlays at hrows
    split_ifs at hrows with h
    simp only [ParlayResult.parlays.injEq] at hrows
    subst hrows
    have hsp := sortJointDesc_perm (((parlay_pool df k).sublistsLen k).map
      (fun legs => ({ joint_prob := (legs.map Pick.cover_prob).prod, legs := legs } : Parlay α)))
    refine ⟨?_, sortJointDesc_sorted _, ?_, ?_⟩
    · rw [hsp.length_eq, List.length_map, List.length_sublistsLen]
    · intro pr hpr
      have h1 := hsp.mem_iff.mp hpr
      rcases List.mem_map.mp h1 with ⟨legs, hlegs, rfl⟩
      rcases List.mem_sublistsLen.mp hlegs with ⟨hsub, hlen⟩
      exact ⟨rfl, hsub, hlen⟩
    · intro legs hsub hlen
      refine ⟨{ joint_prob := (legs.map Pick.cover_prob).prod, legs := legs }, ?_, rfl⟩
      exact hsp.mem_iff.mpr
        (List.mem_map.mpr ⟨legs, List.mem_sublistsLen.mpr ⟨hsub, hlen⟩, rfl⟩)

/-- Witness for C5 at the three-pick integer-keyed fixture with
`leg_count = 2`. -/
theorem enumerate_parlays_spec_witness :
    rowsParlayW.length = Nat.choose (parlay_pool dfParlayW 2).length 2 ∧
    List.Sorted (fun a b : Parlay ℤ => b.joint_prob ≤ a.joint_prob) rowsParlayW := by
  have h := (enumerate_parlays_spec dfParlayW 2).2.2.2.2 rowsParlayW (by decide)
  exact ⟨h.1, h.2.1⟩

/-! ## Futures de-duplication: association-list lemmas -/

theorem lookup_append (k : String) (l1 l2 : List (String × Outcome)) :
    (l1 ++ l2).lookup k
      = match l1.lookup k with
        | some v => some v
        | none => l2.lookup k := by
  induction l1 with
  | nil => simp [List.lookup]
  | cons p l1 ih =>
      rcases p with ⟨k1, v1⟩
      by_cases hb : k = k1
      · subst hb
        simp [List.lookup]
      · have hbeq : (k == k1) = false := beq_eq_false_iff_ne.mpr hb
        simp only [List.cons_append, List.lookup, hbeq]
        exact ih

theorem lookup_none_iff (k : String) (l : List (String × Outcome)) :
    l.lookup k = none ↔ k ∉ l.map Prod.fst := by
  induction l with
  | nil => simp [List.lookup]
  | cons p l ih =>
      rcases p with ⟨k1, v1⟩
      by_cases hb : k = k1
      · subst hb
        simp [List.lookup]
      · have hbeq : (k == k1) = false := beq_eq_false_iff_ne.mpr hb
        simp only [List.lookup, hbeq, List.map_cons, List.mem_cons]
        rw [ih]
        constructor
        · intro h1 h2
          rcases h2 with h3 | h3
          · exact hb h3
          · exact h1 h3
        · intro h1 h2
          exact h1 (Or.inr h2)

theorem mem_of_lookup_eq_some {k : String} {v : Outcome} {l : List (String × Outcome)}
    (h : l.lookup k = some v) : (k, v) ∈ l := by
  induction l with
  | nil => simp [List.lookup] at h
  | cons p l ih =>
      rcases p with ⟨k1, v1⟩
      by_cases hb : k = k1
      · subst hb
        simp only [List.lookup, beq_self_eq_true] at h
        obtain rfl : v1 = v := by simpa using h
        exact List.mem_cons_self _ _
      · have hbeq : (k == k1) = false := beq_eq_false_iff_ne.mpr hb
        simp only [List.lookup, hbeq] at h
        exact List.mem_cons_of_mem _ (ih h)

theorem lookup_setValue_self (l : List (String × Outcome)) (k : String) (o : Outcome) :
    (setValue l k o).lookup k = some o := by
  induction l with
  | nil => simp [setValue, List.lookup]
  | cons p l ih =>
      rcases p with ⟨k1, v1⟩
      by_cases hb : k1 = k
      · subst hb
        simp [setValue, List.lookup]
      · have hbeq : (k == k1) = false := beq_eq_false_iff_ne.mpr (Ne.symm hb)
        rw [setValue, if_neg hb]
        simp only [List.lookup, hbeq]
        exact ih

theorem lookup_setValue_ne (l : List (String × Outcome)) (k k2 : String) (o : Outcome)
    (h : k2 ≠ k) : (setValue l k o).lookup k2 = l.lookup k2 := by
  induction l with
  | nil =>
      have hbeq : (k2 == k) = false := beq_eq_false_iff_ne.mpr h
      simp [setValue, List.lookup, hbeq]
  | cons p l ih =>
      rcases p with ⟨k1, v1⟩
      by_cases hb : k1 = k
      · subst hb
        have hbeq : (k2 == k1) = false := beq_eq_false_iff_ne.mpr h
        simp [setValue, List.lookup, hbeq]
      · rw [setValue, if_neg hb]
        by_cases hb2 : k2 = k1
        · subst hb2
          simp [List.lookup]
        · have hbeq : (k2 == k1) = false := beq_eq_false_iff_ne.mpr hb2
          simp only [List.lookup, hbeq]
          exact ih

theorem setValue_names (l : List (String × Outcome)) (o : Outcome)
    (hl : ∀ p ∈ l, (p : String × Outcome).2.name = p.1) :
    ∀ p ∈ setValue l o.name o, (p : String × Outcome).2.name = p.1 := by
  induction l with
  | nil =>
      intro p hp
      simp [setValue] at hp
      subst hp
      rfl
  | cons q l ih =>
      rcases q with ⟨k1, v1⟩
      intro p hp
      by_cases hb : k1 = o.name
      · rw [setValue, if_pos hb] at hp
        rcases List.mem_cons.mp hp with rfl | hp2
        · exact hb.symm
        · exact hl p (List.mem_cons_of_mem _ hp2)
      · rw [setValue, if_neg hb] at hp
        rcases List.mem_cons.mp hp with rfl | hp2
        · exact hl _ (List.mem_cons_self _ _)
        · exact ih (fun q hq => hl q (List.mem_cons_of_mem _ hq)) p hp2

theorem setValue_keys (l : List (String × Outcome)) (k : String) (o : Outcome)
    (h : (l.lookup k).isSome) : (setValue l k o).map Prod.fst = l.map Prod.fst := by
  induction l with
  | nil => simp [List.lookup] at h
  | cons p l ih =>
      rcases p with ⟨k1, v1⟩
      by_cases hb : k1 = k
      · subst hb
        simp [setValue]
      · have hbeq : (k == k1) = false := beq_eq_false_iff_ne.mpr (Ne.symm hb)
        simp only [List.lookup, hbeq] at h
        rw [setValue, if_neg hb]
        simp [ih h]

theorem insertOddsAsc_perm (x : Outcome) (l : List Outcome) :
    List.Perm (insertOddsAsc x l) (x :: l) := by
  induction l with
  | nil => exact List.Perm.refl _
  | cons y ys ih =>
      unfold insertOddsAsc
      by_cases h : x.odds ≤ y.odds
      · rw [if_pos h]
      · rw [if_neg h]
        exact (List.Perm.cons y ih).trans (List.Perm.swap x y ys)

theorem sortOddsAsc_perm (l : List Outcome) : List.Perm (sortOddsAsc l) l := by
  induction l with
  | nil => exact List.Perm.refl _
  | cons x xs ih =>
      exact (insertOddsAsc_perm x (sortOddsAsc xs)).trans (List.Perm.cons x ih)

/-! ## Futures de-duplication: the spec-side best entry -/

theorem best_entry_eq_none {name : String} {os : List Outcome}
    (h : best_entry name os = none) : ∀ o ∈ os, o.name ≠ name := by
  induction os with
  | nil => intro o ho; simp at ho
  | cons x os ih =>
      intro o ho
      unfold best_entry at h
      by_cases hx : x.name = name
      · rw [if_pos hx] at h
        rcases hb : best_entry name os with _ | b <;> rw [hb] at h <;> simp only [] at h
        · exact absurd h (by simp)
        · split_ifs at h <;> exact absurd h (by simp)
      · rw [if_neg hx] at h
        rcases List.mem_cons.mp ho with rfl | ho2
        · exact hx
        · exact ih h o ho2

theorem best_entry_isSome {name : String} {os : List Outcome}
    (h : name ∈ os.map Outcome.name) : ∃ o, best_entry name os = some o := by
  rcases hb : best_entry name os with _ | o
  · rcases List.mem_map.mp h with ⟨o, ho, hname⟩
    exact absurd hname (best_entry_eq_none hb o ho)
  · exact ⟨o, rfl⟩

theorem best_entry_spec {name : String} {os : List Outcome} {o : Outcome}
    (h : best_entry name os = some o) :
    o.name = name ∧ o ∈ os ∧
    (∀ o2 ∈ os, o2.name = name → o.odds ≤ o2.odds) ∧
    (∃ l1 l2, os = l1 ++ o :: l2 ∧ ∀ o2 ∈ l1, o2.name = name → o.odds < o2.odds) := by
  induction os generalizing o with
  | nil => simp [best_entry] at h
  | cons x os ih =>
      unfold best_entry at h
      by_cases hx : x.name = name
      · rw [if_pos hx] at h
        rcases hb : best_entry name os with _ | b <;> rw [hb] at h <;> simp only [] at h
        · obtain rfl : x = o := by simpa using h
          refine ⟨hx, List.mem_cons_self _ _, ?_, [], os, rfl, by simp⟩
          intro o2 ho2 hn2
          rcases List.mem_cons.mp ho2 with rfl | ho3
          · exact le_refl _
          · exact absurd hn2 (best_entry_eq_none hb o2 ho3)
        · obtain ⟨hbn, hbmem, hbmin, l1, l2, hsplit, hstrict⟩ := ih hb
          by_cases hlt : b.odds < x.odds
          · rw [if_pos hlt] at h
            obtain rfl : b = o := by simpa using h
            refine ⟨hbn, List.mem_cons_of_mem _ hbmem, ?_, x :: l1, l2, by simp [hsplit], ?_⟩
            · intro o2 ho2 hn2
              rcases List.mem_cons.mp ho2 with rfl | ho3
              · exact hlt.le
              · exact hbmin o2 ho3 hn2
            · intro o2 ho2 hn2
              rcases List.mem_cons.mp ho2 with rfl | ho3
              · exact hlt
              · exact hstrict o2 ho3 hn2
          · rw [if_neg hlt] at h
            obtain rfl : x = o := by simpa using h
            refine ⟨hx, List.mem_cons_self _ _, ?_, [], os, rfl, by simp⟩
            intro o2 ho2 hn2
            rcases List.mem_cons.mp ho2 with rfl | ho3
            · exact le_refl _
            · exact le_trans (not_lt.mp hlt) (hbmin o2 ho3 hn2)
      · rw [if_neg hx] at h
        obtain ⟨hbn, hbmem, hbmin, l1, l2, hsplit, hstrict⟩ := ih h
        refine ⟨hbn, List.mem_cons_of_mem _ hbmem, ?_, x :: l1, l2, by simp [hsplit], ?_⟩
        · intro o2 ho2 hn2
          rcases List.mem_cons.mp ho2 with rfl | ho3
          · exact absurd hn2 hx
          · exact hbmin o2 ho3 hn2
        · intro o2 ho2 hn2
          rcases List.mem_cons.mp ho2 with rfl | ho3
          · exact absurd hn2 hx
          · exact hstrict o2 ho3 hn2

/-- The dict fold computes, per key, the first-seen minimal entry: the
lookup after folding merges the accumulator's entry with the spec-side
best entry of the remaining outcomes, later entries winning only on
strictly smaller odds. -/
theorem foldl_step_seen_lookup (name : String) (os : List Outcome) :
    ∀ seen : List (String × Outcome),
      (os.foldl step_seen seen).lookup name
        = merge_entry (seen.lookup name) (best_entry name os) := by
  induction os with
  | nil =>
      intro seen
      rcases hs : seen.lookup name with _ | p <;> simp [best_entry, merge_entry, hs]
  | cons o os ih =>
      intro seen
      rw [List.foldl_cons, ih (step_seen seen o)]
      by_cases ho : o.name = name
      · subst ho
        unfold step_seen
        rcases hs : seen.lookup o.name with _ | prev
        · show merge_entry ((seen ++ [(o.name, o)]).lookup o.name) (best_entry o.name os)
              = merge_entry none (best_entry o.name (o :: os))
          rw [lookup_append, hs]
          show merge_entry (List.lookup o.name [(o.name, o)]) (best_entry o.name os)
              = merge_entry none (best_entry o.name (o :: os))
          rw [show List.lookup o.name [(o.name, o)] = some o from by simp [List.lookup]]
          simp only [best_entry]
          rw [if_true]
          rcases hbos : best_entry o.name os with _ | b
          · rfl
          · rfl
        · by_cases hlt : o.odds < prev.odds
          · show merge_entry
                ((if o.odds < prev.odds then setValue seen o.name o else seen).lookup o.name)
                (best_entry o.name os)
              = merge_entry (some prev) (best_entry o.name (o :: os))
            rw [if_pos hlt, lookup_setValue_self]
            simp only [best_entry]
            rw [if_true]
            rcases hbos : best_entry o.name os with _ | b
            · show some o = if o.odds < prev.odds then some o else some prev
              rw [if_pos hlt]
            · show (if b.odds < o.odds then some b else some o)
                  = merge_entry (some prev) (if b.odds < o.odds then some b else some o)
              by_cases hbo : b.odds < o.odds
              · rw [if_pos hbo]
                show some b = if b.odds < prev.odds then some b else some prev
                rw [if_pos (by omega)]
              · rw [if_neg hbo]
                show some o = if o.odds < prev.odds then some o else some prev
                rw [if_pos hlt]
          · show merge_entry
                ((if o.odds < prev.odds then setValue seen o.name o else seen).lookup o.name)
                (best_entry o.name os)
              = merge_entry (some prev) (best_entry o.name (o :: os))
            rw [if_neg hlt, hs]
            simp only [best_entry]
            rw [if_true]
            rcases hbos : best_entry o.name os with _ | b
            · show some prev = if o.odds < prev.odds then some o else some prev
              rw [if_neg hlt]
            · show (if b.odds < prev.odds then some b else some prev)
                  = merge_entry (some prev) (if b.odds < o.odds then some b else some o)
              by_cases hbo : b.odds < o.odds
              · rw [if_pos hbo]
                rfl
              · rw [if_neg hbo]
                show (if b.odds < prev.odds then some b else some prev)
                    = if o.odds < prev.odds then some o else some prev
                rw [if_neg hlt, if_neg (by omega)]
      · have hstep : (step_seen seen o).lookup name = seen.lookup name := by
          unfold step_seen
          rcases hs : seen.lookup o.name with _ | prev
          · show (seen ++ [(o.name, o)]).lookup name = seen.lookup name
            rw [lookup_append]
            rcases hsn : seen.lookup name with _ | v
            · show List.lookup name [(o.name, o)] = none
              have hbeq : (name == o.name) = false := beq_eq_false_iff_ne.mpr (Ne.symm ho)
              simp [List.lookup, hbeq]
            · rfl
          · show (if o.odds < prev.odds then setValue seen o.name o else seen).lookup name
                = seen.lookup name
            split_ifs
            · exact lookup_setValue_ne seen o.name name o (Ne.symm ho)
            · rfl
        have hbest : best_entry name (o :: os) = best_entry name os := by
          simp [best_entry, ho]
        rw [hstep, hbest]

/-- The fold keeps every stored entry's name equal to its dict key. -/
theorem fold_names (os : List Outcome) :
    ∀ seen : List (String × Outcome), (∀ p ∈ seen, (p : String × Outcome).2.name = p.1) →
      ∀ p ∈ os.foldl step_seen seen, (p : String × Outcome).2.name = p.1 := by
  induction os with
  | nil =>
      intro seen h
      simpa using h
  | cons o os ih =>
      intro seen hseen
      rw [List.foldl_cons]
      apply ih
      unfold step_seen
      rcases hs : seen.lookup o.name with _ | prev
      · intro p hp
        rcases List.mem_append.mp hp with hp1 | hp2
        · exact hseen p hp1
        · have : p = (o.name, o) := by simpa using hp2
          subst this
          rfl
      · show ∀ p ∈ (if o.odds < prev.odds then setValue seen o.name o else seen),
            (p : String × Outcome).2.name = p.1
        split_ifs
        · exact setValue_names seen o hseen
        · exact hseen

/-- The fold keeps the dict keys distinct. -/
theorem fold_keys_nodup (os : List Outcome) :
    ∀ seen : List (String × Outcome), (seen.map Prod.fst).Nodup →
      ((os.foldl step_seen seen).map Prod.fst).Nodup := by
  induction os with
  | nil =>
      intro seen h
      simpa using h
  | cons o os ih =>
      intro seen hnd
      rw [List.foldl_cons]
      apply ih
      unfold step_seen
      rcases hs : seen.lookup o.name with _ | prev
      · have hnot : o.name ∉ seen.map Prod.fst := (lookup_none_iff o.name seen).mp hs
        show ((seen ++ [(o.name, o)]).map Prod.fst).Nodup
        rw [List.map_append]
        simp [List.nodup_append, hnd, hnot]
      · show ((if o.odds < prev.odds then setValue seen o.name o else seen).map Prod.fst).Nodup
        split_ifs
        · rw [setValue_keys seen o.name o (by rw [hs]; rfl)]
          exact hnd
        · exact hnd

/-- With distinct keys and name-consistent values, exactly one stored
value carries any name that is present. -/
theorem countP_name_vals (name : String) :
    ∀ l : List (String × Outcome), (∀ p ∈ l, (p : String × Outcome).2.name = p.1) →
      (l.map Prod.fst).Nodup →
      (l.map Prod.snd).countP (fun o => o.name == name)
        = if (l.lookup name).isSome then 1 else 0 := by
  intro l
  induction l with
  | nil =>
      intro _ _
      simp [List.lookup]
  | cons p l ih =>
      rcases p with ⟨k1, v1⟩
      intro hcons hnd
      have hv1 : v1.name = k1 := hcons (k1, v1) (List.mem_cons_self _ _)
      rw [List.map_cons] at hnd
      rcases List.nodup_cons.mp hnd with ⟨hk1, hnd2⟩
      simp only [List.map_cons, List.countP_cons]
      rw [ih (fun q hq => hcons q (List.mem_cons_of_mem _ hq)) hnd2]
      by_cases hb : k1 = name
      · subst hb
        have hlook : l.lookup k1 = none := (lookup_none_iff k1 l).mpr hk1
        simp [List.lookup, hlook, hv1]
      · have hbeq : (name == k1) = false := beq_eq_false_iff_ne.mpr (Ne.symm hb)
        have hvb : (v1.name == name) = false := beq_eq_false_iff_ne.mpr (by rw [hv1]; exact hb)
        rw [show List.lookup name ((k1, v1) :: l) = List.lookup name l from by
          simp only [List.lookup, hbeq]]
        simp [hvb]

/-- C9: after futures de-duplication every present name is carried by
exactly one retained entry; that entry comes from the input, has the
numerically smallest odds among the entries sharing the name, and is the
first-seen entry achieving those odds (every same-name entry before it
has strictly larger odds). -/
theorem dedupe_outcomes_spec (os : List Outcome) (name : String)
    (h : name ∈ os.map Outcome.name) :
    (dedupe_outcomes os).countP (fun o => o.name == name) = 1 ∧
    ∃ o, best_entry name os = some o ∧ o ∈ dedupe_outcomes os ∧ o.name = name ∧ o ∈ os ∧
      (∀ o2 ∈ os, o2.name = name → o.odds ≤ o2.odds) ∧
      (∃ l1 l2, os = l1 ++ o :: l2 ∧ ∀ o2 ∈ l1, o2.name = name → o.odds < o2.odds) := by
  obtain ⟨o, hbest⟩ := best_entry_isSome h
  have hlookup : (os.foldl step_seen []).lookup name = some o := by
    rw [foldl_step_seen_lookup name os []]
    simp [List.lookup, hbest, merge_entry]
  have hcons := fold_names os [] (by simp)
  have hnd := fold_keys_nodup os [] (by simp)
  have hcount : ((os.foldl step_seen []).map Prod.snd).countP (fun o2 => o2.name == name)
      = 1 := by
    rw [countP_name_vals name _ hcons hnd, hlookup]
    rfl
  have hperm := sortOddsAsc_perm ((os.foldl step_seen []).map Prod.snd)
  constructor
  · show (sortOddsAsc _).countP _ = 1
    rw [hperm.countP_eq]
    exact hcount
  · obtain ⟨hname, hmem, hmin, hsplit⟩ := best_entry_spec hbest
    refine ⟨o, hbest, ?_, hname, hmem, hmin, hsplit⟩
    have hpair : (name, o) ∈ os.foldl step_seen [] := mem_of_lookup_eq_some hlookup
    exact hperm.mem_iff.mpr (List.mem_map.mpr ⟨(name, o), hpair, rfl⟩)

/-- Witness for C9 at the fixture outcome list, whose duplicated name
ties at the smallest odds. -/
theorem dedupe_outcomes_spec_witness :
    (dedupe_outcomes outcomesW).countP (fun o => o.name == "Ohio State") = 1 :=
  (dedupe_outcomes_spec outcomesW "Ohio State" (by decide)).1

end CFB
